import Mathlib

/- Shallow embedding of the CIC decimator width calculator
   (src/cicdecimator/Builder.py, src/cicdecimator/cmdline.py, pruning.py).

   Floating-point quantities of the source (gain norms, noise budget,
   logarithms) are modelled over the reals; all integer quantities are
   modelled exactly over Nat/Int. -/

namespace CIC

/-- Fuel-driven binary digit count: with fuel at least n, bitLenAux fuel n
is the number of binary digits of n. -/
def bitLenAux : ℕ → ℕ → ℕ
  | 0, _ => 0
  | fuel + 1, n => if n = 0 then 0 else bitLenAux fuel (n / 2) + 1

/-- Number of binary digits of n, which is what Python int.bit_length
returns on a nonnegative int. -/
def bitLen (n : ℕ) : ℕ := bitLenAux n n

/-- Python int.bit_length of an arbitrary int: the digit count of the
magnitude. -/
def pyBitLength (x : ℤ) : ℕ := bitLen x.natAbs

/-- Width rule for dtype unsigned in Builder._cook: bits(x, y) is
y.bit_length(), the lower bound x being ignored. -/
def bitsU (y : ℤ) : ℕ := pyBitLength y

/-- Signed bit length used by Builder._cook: the magnitude digit count,
plus a sign bit when the value is nonnegative. -/
def sbl (x : ℤ) : ℕ := pyBitLength x + (if x < 0 then 0 else 1)

/-- Width rule for dtype signed in Builder._cook: the larger of the two
signed bit lengths of the range ends. -/
def bitsS (x y : ℤ) : ℕ := max (sbl x) (sbl y)

/-- The bits helper chosen in Builder._cook according to the dtype. -/
def bits (unsigned : Bool) (x y : ℤ) : ℕ := if unsigned then bitsU y else bitsS x y

/-- Configuration of the generator, the fields of Builder that the width
calculation reads: R is the source field named ratio, N the field named
stages, unsigned says whether dtype is the string unsigned, and
output_width is None or a requested width. -/
structure Cfg where
  R : ℕ
  N : ℕ
  unsigned : Bool
  input_min : ℤ
  input_max : ℤ
  output_width : Option ℕ

/-- The growth factor ratio ** stages of Builder._cook. -/
def growth (c : Cfg) : ℕ := Cfg.R c ^ Cfg.N c

/-- internal_bits of Builder._cook: the width of the scaled range
[input_min * growth, input_max * growth]. -/
def internalBits (c : Cfg) : ℕ :=
  bits (Cfg.unsigned c) (Cfg.input_min c * (growth c : ℤ)) (Cfg.input_max c * (growth c : ℤ))

/-- output_bits of Builder._cook: the requested width when one is given,
else internal_bits. -/
def outputBits (c : Cfg) : ℕ := (Cfg.output_width c).getD (internalBits c)

/-- Element k of the sequence h_j built by the integrator loop of
calculate_trimmed_stages (with M = 1 as in the source): the alternating
sum over l = 0 .. floor(k / R) of binom(N, l) * binom(N - j + k - R*l,
k - R*l), odd l negated. -/
def h_j (R N j k : ℕ) : ℤ :=
  ∑ l ∈ Finset.range (k / R + 1),
    (-1 : ℤ) ^ l * (Nat.choose N l : ℤ) * (Nat.choose (N - j + k - R * l) (k - R * l) : ℤ)

/-- The sum of squares of the sequence h_j, i.e. the square of the gain
norm the loop stores for integrator stage j. -/
def S_int (R N j : ℕ) : ℤ :=
  ∑ k ∈ Finset.range ((R - 1) * N + j), h_j R N j k ^ 2

/-- The precomputed comb norms canned_F of the source, before their
elementwise square root. -/
def canned : List ℕ := [1, 2, 6, 20, 70, 252, 924, 3424]

/-- The gain norm array F_j of calculate_trimmed_stages as a function of
the index i: positions 0 .. N-2 are written by the integrator loop (the
loop variable j runs N-1 down to 1 and writes position j-1), position
N-1 is overwritten at the end with the first comb norm times sqrt R, and
positions N .. 2N receive the comb table in reverse. -/
noncomputable def F (R N i : ℕ) : ℝ :=
  if i + 1 < N then Real.sqrt (S_int R N (i + 1) : ℝ)
  else if i + 1 = N then Real.sqrt (canned.getD (N - 1) 0 : ℝ) * Real.sqrt (R : ℝ)
  else Real.sqrt (canned.getD (2 * N - i) 0 : ℝ)

/-- truncation_noise_std of calculate_trimmed_stages, as a function of
bits_truncated. -/
noncomputable def noiseStd (T : ℕ) : ℝ := Real.sqrt (2 ^ (2 * T) / 12)

/-- The raw per-stage pruned-bit count of calculate_trimmed_stages,
before the three corrections: floor of -log2 F + log2 noiseStd +
log2(6 / N) / 2. -/
noncomputable def B_raw (R N T i : ℕ) : ℤ :=
  ⌊-Real.logb 2 (F R N i) + Real.logb 2 (noiseStd T) + Real.logb 2 (6 / (N : ℝ)) / 2⌋

/-- The corrected per-stage pruned-bit count of calculate_trimmed_stages:
the last position (2N) is overwritten with bits_truncated, position 0 is
forced to 0, and negative entries are clamped to 0. -/
noncomputable def B (R N T i : ℕ) : ℤ :=
  if i = 0 then 0 else max (if i = 2 * N then (T : ℤ) else B_raw R N T i) 0

/-- The trimmed-stage computation completes without raising only when
1 <= N (otherwise the final override indexes F_j out of range) and
N <= 7 (otherwise the reversed comb-table slice cannot be broadcast into
the N + 1 comb slots). -/
def trimOK (c : Cfg) : Bool := decide (1 ≤ Cfg.N c) && decide (Cfg.N c ≤ 7)

/-- Builder._cook completes without raising: either the untrimmed branch
is taken (output width at least internal width) or the trimmed branch
succeeds. -/
def calcOK (c : Cfg) : Bool := decide (internalBits c ≤ outputBits c) || trimOK c

/-- The stage width vector produced by Builder._cook, as a function of
the index 0 .. 2N: the untrimmed branch gives every position the
internal width except the last, which gets output_bits; the trimmed
branch subtracts the corrected pruned-bit counts. -/
noncomputable def stage_widths (c : Cfg) (i : ℕ) : ℤ :=
  if internalBits c ≤ outputBits c then
    (if i = 2 * Cfg.N c then (outputBits c : ℤ) else (internalBits c : ℤ))
  else (internalBits c : ℤ) - B (Cfg.R c) (Cfg.N c) (internalBits c - outputBits c) i

/-- The sign-conflict test of parse_arguments in cmdline.py: dtype
unsigned together with a negative range end is reported with
parser.error. -/
def rangeConflict (unsigned : Bool) (mn mx : ℤ) : Bool :=
  unsigned && (decide (mn < 0) || decide (mx < 0))

/-- The bound normalization of parse_arguments in cmdline.py: after the
two integers a (first) and b (second) are read from the range string,
they are swapped when a > b. -/
def normalizeRange (a b : ℤ) : ℤ × ℤ := if b < a then (b, a) else (a, b)

/-- x is representable in a w-bit twos-complement register. -/
def reprTC (w : ℕ) (x : ℤ) : Prop := -(2 ^ (w - 1)) ≤ x ∧ x < 2 ^ (w - 1)

instance (w : ℕ) (x : ℤ) : Decidable (reprTC w x) :=
  inferInstanceAs (Decidable (-(2 ^ (w - 1)) ≤ x ∧ x < 2 ^ (w - 1)))

/-- The known-value scenario configuration: ratio 16, 3 stages, 16-bit
unsigned input, unconstrained output. -/
def c16 : Cfg := ⟨16, 3, true, 0, 65535, none⟩

/-- The same configuration with only the output-width constraint
replaced. -/
def withOutput (c : Cfg) (w : ℕ) : Cfg := { c with output_width := some w }

/-- Small trimmed-path configuration used to instantiate theorems. -/
def cA : Cfg := ⟨2, 1, true, 0, 3, some 1⟩

/-- Another small trimmed-path configuration used to instantiate
theorems. -/
def cB : Cfg := ⟨2, 1, true, 0, 3, some 2⟩

/-- Base configuration for the monotonicity instance. -/
def cW7 : Cfg := ⟨2, 1, true, 0, 7, none⟩

theorem internalBits_withOutput (c : Cfg) (w : ℕ) :
    internalBits (withOutput c w) = internalBits c := rfl

theorem outputBits_withOutput (c : Cfg) (w : ℕ) :
    outputBits (withOutput c w) = w := rfl

theorem R_withOutput (c : Cfg) (w : ℕ) : Cfg.R (withOutput c w) = Cfg.R c := rfl

theorem N_withOutput (c : Cfg) (w : ℕ) : Cfg.N (withOutput c w) = Cfg.N c := rfl

theorem B_zero (R N T : ℕ) : B R N T 0 = 0 := rfl

theorem B_nonneg (R N T i : ℕ) : 0 ≤ B R N T i := by
  unfold B
  split
  · exact le_rfl
  · exact le_max_right _ _

theorem log_noiseStd (T : ℕ) :
    Real.log (noiseStd T) = T * Real.log 2 - Real.log 12 / 2 := by
  unfold noiseStd
  rw [Real.log_sqrt (by positivity), Real.log_div (by positivity) (by norm_num),
    Real.log_pow]
  push_cast
  ring

theorem B_raw_shift (R N T i : ℕ) :
    B_raw R N T i = (T : ℤ) + B_raw R N 0 i := by
  unfold B_raw
  have hlog : Real.log 2 ≠ 0 := (Real.log_pos (by norm_num)).ne'
  have key : -Real.logb 2 (F R N i) + Real.logb 2 (noiseStd T) +
      Real.logb 2 (6 / (N : ℝ)) / 2 =
      -Real.logb 2 (F R N i) + Real.logb 2 (noiseStd 0) +
        Real.logb 2 (6 / (N : ℝ)) / 2 + (T : ℝ) := by
    unfold Real.logb
    rw [log_noiseStd, log_noiseStd]
    push_cast
    field_simp
    ring
  rw [key, Int.floor_add_nat]
  exact add_comm _ _

theorem B_mono (R N : ℕ) {T1 T2 : ℕ} (hT : T2 ≤ T1) (i : ℕ) :
    B R N T2 i ≤ B R N T1 i := by
  unfold B
  by_cases h0 : i = 0
  · rw [if_pos h0, if_pos h0]
  · rw [if_neg h0, if_neg h0]
    by_cases h2 : i = 2 * N
    · rw [if_pos h2, if_pos h2]
      exact max_le_max (by exact_mod_cast hT) le_rfl
    · rw [if_neg h2, if_neg h2]
      refine max_le_max ?_ le_rfl
      rw [B_raw_shift R N T1 i, B_raw_shift R N T2 i]
      exact add_le_add_right (by exact_mod_cast hT) _

theorem untrimmed_widths (c : Cfg) (hib : internalBits c ≤ outputBits c) (i : ℕ) :
    stage_widths c i =
      if i = 2 * Cfg.N c then (outputBits c : ℤ) else (internalBits c : ℤ) := by
  unfold stage_widths
  rw [if_pos hib]

/-- C10: when the first integer parsed from an input-range string is
greater than the second, parse_arguments swaps the two bounds so that
the resulting minimum is at most the maximum, and never reports the
reversed order as an error (the swap in cmdline.py is total). -/
theorem range_swap (a b : ℤ) (hab : b < a) :
    normalizeRange a b = (b, a) ∧
    (normalizeRange a b).1 ≤ (normalizeRange a b).2 := by
  unfold normalizeRange
  rw [if_pos hab]
  exact ⟨rfl, le_of_lt hab⟩

theorem range_swap_app :
    (5 : ℤ) < 10 ∧
    (normalizeRange 10 5 = (5, 10) ∧
      (normalizeRange 10 5).1 ≤ (normalizeRange 10 5).2) :=
  ⟨by decide, range_swap 10 5 (by decide)⟩

/-- C5: the signed width rule of Builder._cook is not the minimal
twos-complement width.  For the range [-5, 0] it computes 3 bits, but
-5 is not representable in 3 twos-complement bits (the 3-bit range is
[-4, 3]); 4 bits are required. -/
theorem signed_width_underallocates :
    bitsS (-5) 0 = 3 ∧ ¬ reprTC (bitsS (-5) 0) (-5) ∧ reprTC 4 (-5) :=
  ⟨by decide, by decide, by decide⟩

/-- C8 counterexample: a configuration with unsigned dtype and a fully
negative input range is not rejected by the width calculation itself;
Builder._cook runs its untrimmed branch and produces stage widths (using
the magnitude bit length of the scaled range). -/
theorem unsigned_negative_calc_proceeds :
    rangeConflict true (-4) (-1) = true ∧
    calcOK ⟨2, 1, true, -4, -1, none⟩ = true ∧
    stage_widths ⟨2, 1, true, -4, -1, none⟩ 0 = 2 ∧
    stage_widths ⟨2, 1, true, -4, -1, none⟩ 1 = 2 ∧
    stage_widths ⟨2, 1, true, -4, -1, none⟩ 2 = 2 :=
  ⟨by decide, by decide, by decide, by decide, by decide⟩

/-- C8 amended: the unsigned/negative-range conflict is rejected at
argument-parsing time: the parse_arguments check fires exactly when the
dtype is unsigned and one of the bounds is negative, and it reports an
error rather than clamping.  The Builder calculation itself performs no
such check (see the counterexample). -/
theorem range_conflict_parse_check :
    ∀ mn mx : ℤ, rangeConflict true mn mx = true ↔ (mn < 0 ∨ mx < 0) := by
  intro mn mx
  simp [rangeConflict]

/-- C9 counterexample: with 8 stages (comb table exhausted) but an
unconstrained output width, Builder._cook takes the untrimmed branch,
never touches the comb table, and produces stage widths without any
error. -/
theorem stages_eight_unconstrained_ok :
    7 < Cfg.N (⟨4, 8, true, 0, 3, none⟩ : Cfg) ∧
    Cfg.output_width (⟨4, 8, true, 0, 3, none⟩ : Cfg) = none ∧
    calcOK ⟨4, 8, true, 0, 3, none⟩ = true ∧
    stage_widths ⟨4, 8, true, 0, 3, none⟩ 0 = 18 ∧
    stage_widths ⟨4, 8, true, 0, 3, none⟩ 16 = 18 :=
  ⟨by decide, rfl, by decide, by decide, by decide⟩

/-- C9 amended: for stage counts above 7 the calculation raises (the
reversed comb-table slice cannot fill the N + 1 comb slots) exactly when
the trimmed branch is selected, i.e. when the output width constraint is
below the internal width; with an unconstrained or non-binding
constraint the untrimmed branch succeeds. -/
theorem stages_overflow_error_iff_trimmed (c : Cfg) (h8 : 8 ≤ Cfg.N c) :
    calcOK c = true ↔ internalBits c ≤ outputBits c := by
  unfold calcOK trimOK
  simp only [Bool.or_eq_true, Bool.and_eq_true, decide_eq_true_eq]
  omega

theorem stages_overflow_error_iff_trimmed_app :
    8 ≤ Cfg.N (⟨4, 8, true, 0, 3, some 5⟩ : Cfg) ∧
    (calcOK ⟨4, 8, true, 0, 3, some 5⟩ = true ↔
      internalBits ⟨4, 8, true, 0, 3, some 5⟩ ≤ outputBits ⟨4, 8, true, 0, 3, some 5⟩) :=
  ⟨by decide, stages_overflow_error_iff_trimmed _ (by decide)⟩

/-- C6: in the trimmed-stage computation (which the final override can
reach only for 1 <= N <= 7, the comb-table assignment having succeeded),
the gain norm at the last integrator position N - 1 equals the gain norm
at the first comb position N + 1 times the square root of the ratio. -/
theorem last_integrator_override (c : Cfg)
    (htrim : outputBits c < internalBits c)
    (hN1 : 1 ≤ Cfg.N c) (hN7 : Cfg.N c ≤ 7) :
    F (Cfg.R c) (Cfg.N c) (Cfg.N c - 1) =
      F (Cfg.R c) (Cfg.N c) (Cfg.N c + 1) * Real.sqrt (Cfg.R c : ℝ) := by
  simp only [F]
  rw [Nat.sub_add_cancel hN1]
  rw [if_neg (lt_irrefl (Cfg.N c)), if_pos rfl,
    if_neg (show ¬ Cfg.N c + 1 + 1 < Cfg.N c by omega),
    if_neg (show ¬ Cfg.N c + 1 + 1 = Cfg.N c by omega),
    show 2 * Cfg.N c - (Cfg.N c + 1) = Cfg.N c - 1 by omega]

theorem last_integrator_override_app :
    outputBits cA < internalBits cA ∧ 1 ≤ Cfg.N cA ∧ Cfg.N cA ≤ 7 ∧
    F 2 1 0 = F 2 1 2 * Real.sqrt ((2 : ℕ) : ℝ) :=
  ⟨by decide, by decide, by decide,
    last_integrator_override cA (by decide) (by decide) (by decide)⟩

/-- C1: for a trimmed configuration with ratio at least 2 and between 2
and 7 stages, each integrator stage j from N - 1 down to 1 receives (at
array position j - 1) the square root of the sum of squares of the
length-((R-1)N + j) sequence whose element k is the alternating sum over
l = 0 .. floor(k/R) of binom(N, l) * binom(N - j + k - R l, k - R l),
even l counted positively and odd l negatively. -/
theorem integrator_norm_exact (c : Cfg) (j : ℕ) (hR : 2 ≤ Cfg.R c)
    (hN2 : 2 ≤ Cfg.N c) (hN7 : Cfg.N c ≤ 7)
    (htrim : outputBits c < internalBits c)
    (hj1 : 1 ≤ j) (hjN : j ≤ Cfg.N c - 1) :
    F (Cfg.R c) (Cfg.N c) (j - 1) =
      Real.sqrt (∑ k ∈ Finset.range ((Cfg.R c - 1) * Cfg.N c + j),
        ((∑ l ∈ Finset.range (k / Cfg.R c + 1),
            (-1 : ℤ) ^ l * (Nat.choose (Cfg.N c) l : ℤ) *
              (Nat.choose (Cfg.N c - j + k - Cfg.R c * l) (k - Cfg.R c * l) : ℤ) : ℤ) : ℝ) ^ 2) := by
  have hlt : j - 1 + 1 < Cfg.N c := by omega
  simp only [F]
  rw [if_pos hlt, Nat.sub_add_cancel hj1]
  congr 1
  simp only [S_int, h_j]
  push_cast
  rfl

theorem integrator_norm_exact_app :
    (2 ≤ Cfg.R (⟨2, 2, true, 0, 3, some 1⟩ : Cfg) ∧
      2 ≤ Cfg.N (⟨2, 2, true, 0, 3, some 1⟩ : Cfg) ∧
      Cfg.N (⟨2, 2, true, 0, 3, some 1⟩ : Cfg) ≤ 7 ∧
      outputBits ⟨2, 2, true, 0, 3, some 1⟩ < internalBits ⟨2, 2, true, 0, 3, some 1⟩ ∧
      (1 : ℕ) ≤ 1 ∧ 1 ≤ Cfg.N (⟨2, 2, true, 0, 3, some 1⟩ : Cfg) - 1) ∧
    F 2 2 0 =
      Real.sqrt (∑ k ∈ Finset.range ((2 - 1) * 2 + 1),
        ((∑ l ∈ Finset.range (k / 2 + 1),
            (-1 : ℤ) ^ l * (Nat.choose 2 l : ℤ) *
              (Nat.choose (2 - 1 + k - 2 * l) (k - 2 * l) : ℤ) : ℤ) : ℝ) ^ 2) :=
  ⟨⟨by decide, by decide, by decide, by decide, by decide, by decide⟩,
    integrator_norm_exact ⟨2, 2, true, 0, 3, some 1⟩ 1
      (by decide) (by decide) (by decide) (by decide) (by decide) (by decide)⟩

/-- C2: for a configuration whose constrained output width is below the
internal width, the raw pruned-bit count of every stage is the floor of
-log2 of that stage gain norm, plus log2 of the truncation noise
standard deviation (the square root of 2^(2 (internal - output)) / 12),
plus half of log2 of 6 / N. -/
theorem raw_prune_formula (c : Cfg)
    (htrim : outputBits c < internalBits c) (i : ℕ) :
    B_raw (Cfg.R c) (Cfg.N c) (internalBits c - outputBits c) i =
      ⌊-Real.logb 2 (F (Cfg.R c) (Cfg.N c) i) +
        Real.logb 2 (Real.sqrt (2 ^ (2 * (internalBits c - outputBits c)) / 12)) +
        Real.logb 2 (6 / (Cfg.N c : ℝ)) / 2⌋ := rfl

theorem raw_prune_formula_app :
    outputBits cA < internalBits cA ∧
    B_raw 2 1 (internalBits cA - outputBits cA) 1 =
      ⌊-Real.logb 2 (F 2 1 1) +
        Real.logb 2 (Real.sqrt (2 ^ (2 * (internalBits cA - outputBits cA)) / 12)) +
        Real.logb 2 (6 / ((1 : ℕ) : ℝ)) / 2⌋ :=
  ⟨by decide, raw_prune_formula cA (by decide) 1⟩

/-- C4 counterexample: the code adds no guard bit.  In the known-value
scenario (ratio 16, 3 stages, 16-bit unsigned input) the internal width
is exactly 28 = 16 + 12, not 16 + 12 + 1.  Moreover the general formula
input width + ceil(log2(R^N)) already fails without the guard bit for
non-power-of-two ratios: for ratio 3, 1 stage, range [0, 1] the input
width is bitsU 1 = 1 and ceil(log2 3) = 2, yet the internal width is
bitLen 3 = 2, not 1 + 2. -/
theorem guard_bit_refuted :
    internalBits c16 = 28 ∧ 16 + 12 + 1 ≠ 28 ∧
    internalBits ⟨3, 1, true, 0, 1, none⟩ = 2 ∧ bitsU 1 + 2 ≠ 2 :=
  ⟨by decide, by decide, by decide, by decide⟩

/-- C4 amended: the natural internal width is the bit length of the
scaled range under the configured signedness, with no extra guard bit
(for unsigned, the magnitude bit length of input_max * R^N); in the
known-value scenario this gives 16 + 12 = 28 and, the output being
unconstrained, every stage width equals the internal width 28. -/
theorem internal_width_amended (c : Cfg) (hu : Cfg.unsigned c = true) :
    internalBits c = bitLen (Cfg.input_max c * (Cfg.R c : ℤ) ^ Cfg.N c).natAbs ∧
    internalBits c16 = 28 ∧ (∀ i, stage_widths c16 i = 28) := by
  refine ⟨?_, by decide, ?_⟩
  · unfold internalBits bits bitsU pyBitLength growth
    rw [if_pos hu]
    norm_num [Nat.cast_pow]
  · intro i
    rw [untrimmed_widths c16 (by decide) i]
    split
    · decide
    · decide

theorem internal_width_amended_app :
    Cfg.unsigned c16 = true ∧
    (internalBits c16 = bitLen (Cfg.input_max c16 * (Cfg.R c16 : ℤ) ^ Cfg.N c16).natAbs ∧
      internalBits c16 = 28 ∧ (∀ i, stage_widths c16 i = 28)) :=
  ⟨rfl, internal_width_amended c16 rfl⟩

/-- C3: for a configuration on which the calculation completes and whose
output constraint is feasible (not above the internal width, the
infeasible case being a configuration error per the design), the
corrected pruned-bit counts have the first stage at zero, every stage
nonnegative, and, when an output width is constrained, the last stage
width exactly equal to the requested width (equivalently, its pruned-bit
count is exactly internal - output). -/
theorem corrected_counts_invariants (c : Cfg) (hok : calcOK c = true)
    (hfe : outputBits c ≤ internalBits c) :
    (internalBits c : ℤ) - stage_widths c 0 = 0 ∧
    (∀ i, 0 ≤ (internalBits c : ℤ) - stage_widths c i) ∧
    (∀ w, Cfg.output_width c = some w →
      stage_widths c (2 * Cfg.N c) = (w : ℤ)) := by
  by_cases hib : internalBits c ≤ outputBits c
  · have heq : outputBits c = internalBits c := le_antisymm hfe hib
    refine ⟨?_, ?_, ?_⟩
    · rw [untrimmed_widths c hib 0]
      split <;> simp [heq]
    · intro i
      rw [untrimmed_widths c hib i]
      split <;> simp [heq]
    · intro w hw
      have hwo : outputBits c = w := by unfold outputBits; rw [hw]; rfl
      rw [untrimmed_widths c hib (2 * Cfg.N c), if_pos rfl, hwo]
  · push_neg at hib
    have htr : 1 ≤ Cfg.N c ∧ Cfg.N c ≤ 7 := by
      unfold calcOK trimOK at hok
      simp only [Bool.or_eq_true, Bool.and_eq_true, decide_eq_true_eq] at hok
      rcases hok with h | h
      · omega
      · exact h
    have hni : ¬ internalBits c ≤ outputBits c := by omega
    refine ⟨?_, ?_, ?_⟩
    · unfold stage_widths
      rw [if_neg hni, B_zero]
      ring
    · intro i
      unfold stage_widths
      rw [if_neg hni, sub_sub_cancel]
      exact B_nonneg _ _ _ i
    · intro w hw
      have hwo : outputBits c = w := by unfold outputBits; rw [hw]; rfl
      unfold stage_widths
      rw [if_neg hni]
      unfold B
      rw [if_neg (show ¬ 2 * Cfg.N c = 0 by omega), if_pos rfl,
        max_eq_left (Int.natCast_nonneg _), Nat.cast_sub hib.le, hwo]
      ring

theorem corrected_counts_invariants_app :
    calcOK cB = true ∧ outputBits cB ≤ internalBits cB ∧
    ((internalBits cB : ℤ) - stage_widths cB 0 = 0 ∧
      (∀ i, 0 ≤ (internalBits cB : ℤ) - stage_widths cB i) ∧
      (∀ w, Cfg.output_width cB = some w →
        stage_widths cB (2 * Cfg.N cB) = (w : ℤ))) :=
  ⟨by decide, by decide, corrected_counts_invariants cB (by decide) (by decide)⟩

/-- C7: holding ratio, stage count, input range and signedness fixed
(only the output-width constraint changes), raising the constrained
output width never increases any stage pruned-bit count. -/
theorem prune_monotone_in_output_width (c : Cfg) (w1 w2 : ℕ) (h12 : w1 < w2)
    (hN1 : 1 ≤ Cfg.N c) (hN7 : Cfg.N c ≤ 7) (i : ℕ) :
    (internalBits c : ℤ) - stage_widths (withOutput c w2) i ≤
      (internalBits c : ℤ) - stage_widths (withOutput c w1) i := by
  unfold stage_widths
  simp only [internalBits_withOutput, outputBits_withOutput, R_withOutput, N_withOutput]
  by_cases h1 : internalBits c ≤ w1
  · rw [if_pos h1, if_pos (le_trans h1 h12.le)]
    by_cases h2N : i = 2 * Cfg.N c
    · rw [if_pos h2N, if_pos h2N]
      have hw : (w1 : ℤ) ≤ (w2 : ℤ) := by exact_mod_cast h12.le
      omega
    · rw [if_neg h2N, if_neg h2N]
  · by_cases h2 : internalBits c ≤ w2
    · rw [if_neg h1, if_pos h2, sub_sub_cancel]
      have hb := B_nonneg (Cfg.R c) (Cfg.N c) (internalBits c - w1) i
      by_cases h2N : i = 2 * Cfg.N c
      · rw [if_pos h2N]
        have hi2 : (internalBits c : ℤ) ≤ (w2 : ℤ) := by exact_mod_cast h2
        omega
      · rw [if_neg h2N]
        omega
    · rw [if_neg h1, if_neg h2, sub_sub_cancel, sub_sub_cancel]
      exact B_mono (Cfg.R c) (Cfg.N c) (Nat.sub_le_sub_left h12.le _) i

theorem prune_monotone_in_output_width_app :
    (1 : ℕ) < 2 ∧ 1 ≤ Cfg.N cW7 ∧ Cfg.N cW7 ≤ 7 ∧
    ((internalBits cW7 : ℤ) - stage_widths (withOutput cW7 2) 2 ≤
      (internalBits cW7 : ℤ) - stage_widths (withOutput cW7 1) 2) :=
  ⟨by decide, by decide, by decide,
    prune_monotone_in_output_width cW7 1 2 (by decide) (by decide) (by decide) 2⟩

end CIC
